import Mathlib

/-!
# Verification of pdf2img (src/pdf2img.py)

Shallow embedding of the program in Lean 4, with theorems checking the
natural-language specification against it.

The program has two parts relevant to the claims:
* `combine_imgs(imgs, padding=55)` — stacks raster images vertically on a
  fresh RGBA canvas with `padding` transparent rows between consecutive
  images;
* the `__main__` driver — parses an optional leading `start:stop` range
  token, the PDF path, and an optional output path.

Pixels: rasterized pages are 3-channel RGB images (`page_to_img` builds
`Image.frombytes('RGB', ...)`); the combined canvas is 4-channel RGBA
(`Image.new('RGBA', ...)`), initially all `(0,0,0,0)`.  PIL's
`Image.paste` converts the pasted RGB image to the canvas mode, giving
alpha 255 to every pasted pixel.
-/

set_option autoImplicit false

namespace Pdf2Img

/-- A 3-channel RGB raster, as produced by `page_to_img`.  The pixel
function is total; only coordinates inside `[0,width) × [0,height)` are
meaningful. -/
structure Image where
  width : Nat
  height : Nat
  pix : Nat → Nat → Nat × Nat × Nat

/-- A 4-channel RGBA raster, as produced by `Image.new('RGBA', ...)`. -/
structure Canvas where
  width : Nat
  height : Nat
  pix : Nat → Nat → Nat × Nat × Nat × Nat

/-- Default image used only to give `List.getD` a value; never reached
when the index is in bounds. -/
def dummyImg : Image := ⟨0, 0, fun _ _ => (0, 0, 0)⟩

/-- Mode conversion performed by PIL when pasting an RGB image onto an
RGBA canvas: the alpha channel becomes fully opaque (255). -/
def toRGBA (c : Nat × Nat × Nat) : Nat × Nat × Nat × Nat :=
  (c.1, c.2.1, c.2.2, 255)

/-- `Image.new('RGBA', (w, h))`: a blank, fully transparent canvas. -/
def Canvas.new (w h : Nat) : Canvas :=
  ⟨w, h, fun _ _ => (0, 0, 0, 0)⟩

/-- `canvas.paste(img, (x0, y0))`: copies `img` into the canvas with its
top-left corner at `(x0, y0)`, converting RGB to RGBA.  Pixels outside
the pasted rectangle are unchanged. -/
def Canvas.paste (cv : Canvas) (img : Image) (x0 y0 : Nat) : Canvas :=
  { cv with pix := fun x y =>
      if x0 ≤ x ∧ x < x0 + img.width ∧ y0 ≤ y ∧ y < y0 + img.height then
        toRGBA (img.pix (x - x0) (y - y0))
      else cv.pix x y }

/-- `combined_width = max(img.width for img in imgs)` (src/pdf2img.py
line 48).  For a non-empty list this left fold equals the maximum of the
widths, since widths are naturals. -/
def combined_width (imgs : List Image) : Nat :=
  (imgs.map Image.width).foldl Nat.max 0

/-- `combined_height = sum(img.height for img in imgs) + (len(imgs) - 1)
* padding` (src/pdf2img.py line 49). -/
def combined_height (imgs : List Image) (padding : Nat) : Nat :=
  (imgs.map Image.height).sum + (imgs.length - 1) * padding

/-- The paste loop of `combine_imgs` (src/pdf2img.py lines 55-58):
`for img in imgs: combined_img.paste(img, (0, y_offset)); y_offset +=
img.height + padding`. -/
def pasteAll (padding : Nat) : List Image → Canvas → Nat → Canvas
  | [], cv, _ => cv
  | img :: rest, cv, y =>
      pasteAll padding rest (cv.paste img 0 y) (y + img.height + padding)

/-- `combine_imgs(imgs, padding=55)` (src/pdf2img.py lines 37-60).  On an
empty list the source raises an unhandled `ValueError` from `max()` over
an empty sequence; this is modelled as `none`. -/
def combine_imgs (imgs : List Image) (padding : Nat := 55) : Option Canvas :=
  match imgs with
  | [] => none
  | _ :: _ =>
      some (pasteAll padding imgs
        (Canvas.new (combined_width imgs) (combined_height imgs padding)) 0)

/-- Vertical offset at which `combine_imgs` pastes the image at index
`i`: the value of `y_offset` after `i` loop iterations, i.e.
`Σ_{j<i} (height j + padding)`. -/
def y_offset_at (padding : Nat) (imgs : List Image) (i : Nat) : Nat :=
  ((imgs.take i).map (fun im => im.height + padding)).sum

/-! ### Basic lemmas about the canvas operations -/

lemma paste_width (cv : Canvas) (img : Image) (x0 y0 : Nat) :
    (cv.paste img x0 y0).width = cv.width := rfl

lemma paste_height (cv : Canvas) (img : Image) (x0 y0 : Nat) :
    (cv.paste img x0 y0).height = cv.height := rfl

lemma pasteAll_width (padding : Nat) :
    ∀ (l : List Image) (cv : Canvas) (y : Nat),
      (pasteAll padding l cv y).width = cv.width
  | [], _, _ => rfl
  | _ :: rest, _, _ => pasteAll_width padding rest _ _

lemma pasteAll_height (padding : Nat) :
    ∀ (l : List Image) (cv : Canvas) (y : Nat),
      (pasteAll padding l cv y).height = cv.height
  | [], _, _ => rfl
  | _ :: rest, _, _ => pasteAll_height padding rest _ _

/-- A pixel strictly above the current offset is never touched by the
remaining iterations of the paste loop. -/
lemma pasteAll_pix_low (padding : Nat) :
    ∀ (l : List Image) (cv : Canvas) (y0 x y : Nat), y < y0 →
      (pasteAll padding l cv y0).pix x y = cv.pix x y
  | [], _, _, _, _, _ => rfl
  | img :: rest, cv, y0, x, y, hy => by
      have hrec := pasteAll_pix_low padding rest (cv.paste img 0 y0)
        (y0 + img.height + padding) x y (by omega)
      rw [pasteAll, hrec, Canvas.paste]
      simp only
      rw [if_neg (by omega)]

/-- The pixel written for the image at relative index `i` of the
remaining list: inside that image's row band and width, the final canvas
holds that image's (RGBA-converted) pixel. -/
lemma pasteAll_pix_at (padding : Nat) :
    ∀ (l : List Image) (cv : Canvas) (y0 : Nat) (i : Nat), i < l.length →
      ∀ x y : Nat,
        x < (l.getD i dummyImg).width →
        y0 + y_offset_at padding l i ≤ y →
        y < y0 + y_offset_at padding l i + (l.getD i dummyImg).height →
        (pasteAll padding l cv y0).pix x y =
          toRGBA ((l.getD i dummyImg).pix x (y - (y0 + y_offset_at padding l i)))
  | [], _, _, i, hi, _, _, _, _, _ => absurd hi (by simp)
  | img :: rest, cv, y0, 0, _, x, y, hx, hylo, hyhi => by
      simp only [List.getD_cons_zero, y_offset_at, List.take_zero, List.map_nil,
        List.sum_nil, Nat.add_zero] at hx hylo hyhi ⊢
      rw [pasteAll, pasteAll_pix_low padding rest _ _ _ _ (by omega),
        Canvas.paste]
      simp only
      rw [if_pos (by omega)]
      simp
  | img :: rest, cv, y0, i + 1, hi, x, y, hx, hylo, hyhi => by
      have hi' : i < rest.length := by simpa using hi
      have hoff : y_offset_at padding (img :: rest) (i + 1) =
          (img.height + padding) + y_offset_at padding rest i := by
        simp [y_offset_at]
      simp only [List.getD_cons_succ] at hx hyhi ⊢
      rw [hoff] at hylo hyhi ⊢
      rw [pasteAll]
      have hres := pasteAll_pix_at padding rest (cv.paste img 0 y0)
        (y0 + img.height + padding) i hi' x y hx (by omega) (by omega)
      rw [hres]
      congr 2
      omega

/-- A pixel covered by none of the pasted rectangles keeps the value it
had on the initial canvas. -/
lemma pasteAll_pix_uncovered (padding : Nat) :
    ∀ (l : List Image) (cv : Canvas) (y0 x y : Nat),
      (∀ i, i < l.length →
        ¬ (x < (l.getD i dummyImg).width ∧
           y0 + y_offset_at padding l i ≤ y ∧
           y < y0 + y_offset_at padding l i + (l.getD i dummyImg).height)) →
      (pasteAll padding l cv y0).pix x y = cv.pix x y
  | [], _, _, _, _, _ => rfl
  | img :: rest, cv, y0, x, y, h => by
      have h0 := h 0 (by simp)
      simp only [List.getD_cons_zero, y_offset_at, List.take_zero, List.map_nil,
        List.sum_nil, Nat.add_zero] at h0
      have hrest : ∀ i, i < rest.length →
          ¬ (x < (rest.getD i dummyImg).width ∧
             (y0 + img.height + padding) + y_offset_at padding rest i ≤ y ∧
             y < (y0 + img.height + padding) + y_offset_at padding rest i +
               (rest.getD i dummyImg).height) := by
        intro i hi
        have := h (i + 1) (by simpa using hi)
        simp only [List.getD_cons_succ] at this
        have hoff : y_offset_at padding (img :: rest) (i + 1) =
            (img.height + padding) + y_offset_at padding rest i := by
          simp [y_offset_at]
        rw [hoff] at this
        intro hc
        exact this ⟨hc.1, by omega, by omega⟩
      rw [pasteAll, pasteAll_pix_uncovered padding rest _ _ _ _ hrest,
        Canvas.paste]
      simp only
      rw [if_neg (by omega)]

/-! ### Arithmetic lemmas for the layout bounds -/

lemma foldl_max_init_le : ∀ (ws : List Nat) (a : Nat), a ≤ ws.foldl Nat.max a
  | [], _ => Nat.le_refl _
  | w :: ws, a =>
      Nat.le_trans (Nat.le_max_left a w) (foldl_max_init_le ws (Nat.max a w))

lemma foldl_max_mono_init :
    ∀ (ws : List Nat) (a b : Nat), a ≤ b →
      ws.foldl Nat.max a ≤ ws.foldl Nat.max b
  | [], _, _, h => h
  | w :: ws, a, b, h =>
      foldl_max_mono_init ws (Nat.max a w) (Nat.max b w)
        (Nat.max_le.mpr ⟨Nat.le_trans h (Nat.le_max_left b w), Nat.le_max_right b w⟩)

/-- Every image fits horizontally: its width is at most `combined_width`. -/
lemma width_le_combined_width :
    ∀ (l : List Image) (i : Nat), i < l.length →
      (l.getD i dummyImg).width ≤ combined_width l
  | [], i, hi => absurd hi (by simp)
  | img :: rest, 0, _ => by
      simp only [List.getD_cons_zero, combined_width, List.map_cons, List.foldl_cons]
      exact Nat.le_trans (Nat.le_max_right 0 img.width)
        (foldl_max_init_le (rest.map Image.width) _)
  | img :: rest, i + 1, hi => by
      have hi' : i < rest.length := by simpa using hi
      have h1 := width_le_combined_width rest i hi'
      simp only [List.getD_cons_succ, combined_width, List.map_cons, List.foldl_cons]
      exact Nat.le_trans h1
        (foldl_max_mono_init (rest.map Image.width) 0 (Nat.max 0 img.width)
          (Nat.le_max_left 0 img.width))

/-- Every image fits vertically: its row band ends at or before
`combined_height`. -/
lemma y_offset_add_height_le :
    ∀ (l : List Image) (padding i : Nat), i < l.length →
      y_offset_at padding l i + (l.getD i dummyImg).height ≤
        combined_height l padding
  | [], _, i, hi => absurd hi (by simp)
  | img :: rest, padding, 0, _ => by
      simp only [List.getD_cons_zero, y_offset_at, List.take_zero, List.map_nil,
        List.sum_nil, combined_height, List.map_cons, List.sum_cons,
        List.length_cons]
      omega
  | img :: rest, padding, i + 1, hi => by
      have hi' : i < rest.length := by simpa using hi
      have h1 := y_offset_add_height_le rest padding i hi'
      have hoff : y_offset_at padding (img :: rest) (i + 1) =
          (img.height + padding) + y_offset_at padding rest i := by
        simp [y_offset_at]
      have hmul : rest.length * padding = (rest.length - 1) * padding + padding := by
        have h1le : 1 ≤ rest.length := by omega
        obtain ⟨m, hm⟩ := Nat.exists_eq_add_of_le h1le
        rw [hm]
        simp only [Nat.add_mul, Nat.one_mul, Nat.add_sub_cancel_left]
        omega
      simp only [List.getD_cons_succ, hoff, combined_height, List.map_cons,
        List.sum_cons, List.length_cons, Nat.add_sub_cancel] at h1 ⊢
      rw [hmul]
      omega

/-! ### Claim theorems: the image combiner -/

/-- Claim C1: for every non-empty list of images and every padding, the
`combine_imgs` canvas has width `max(wᵢ)` and height
`Σhᵢ + padding·(n−1)`; in particular, a single-image input yields the
input image's exact dimensions, regardless of the padding. -/
theorem combine_imgs_dimensions (imgs : List Image) (padding : Nat)
    (h : imgs ≠ []) :
    ∃ cv, combine_imgs imgs padding = some cv ∧
      cv.width = (imgs.map Image.width).foldl Nat.max 0 ∧
      cv.height = (imgs.map Image.height).sum + (imgs.length - 1) * padding ∧
      ∀ img : Image, imgs = [img] →
        cv.width = img.width ∧ cv.height = img.height := by
  obtain ⟨img0, rest, rfl⟩ := List.exists_cons_of_ne_nil h
  refine ⟨_, rfl, ?_, ?_, ?_⟩
  · rw [pasteAll_width]; rfl
  · rw [pasteAll_height]; rfl
  · intro img hEq
    obtain ⟨rfl, rfl⟩ := List.cons.inj hEq
    refine ⟨?_, ?_⟩
    · rw [pasteAll_width]
      simp [Canvas.new, combined_width]
    · rw [pasteAll_height]
      simp [Canvas.new, combined_height]

/-- Concrete check of C1 on a single 2×3 image with padding 55. -/
theorem combine_imgs_dimensions_witness :
    ([(⟨2, 3, fun _ _ => (1, 2, 3)⟩ : Image)] ≠ ([] : List Image)) ∧
    ∃ cv, combine_imgs [(⟨2, 3, fun _ _ => (1, 2, 3)⟩ : Image)] 55 = some cv ∧
      cv.width = (([(⟨2, 3, fun _ _ => (1, 2, 3)⟩ : Image)]).map Image.width).foldl Nat.max 0 ∧
      cv.height = (([(⟨2, 3, fun _ _ => (1, 2, 3)⟩ : Image)]).map Image.height).sum +
        (([(⟨2, 3, fun _ _ => (1, 2, 3)⟩ : Image)]).length - 1) * 55 ∧
      ∀ img : Image, [(⟨2, 3, fun _ _ => (1, 2, 3)⟩ : Image)] = [img] →
        cv.width = img.width ∧ cv.height = img.height :=
  ⟨by simp, combine_imgs_dimensions [⟨2, 3, fun _ _ => (1, 2, 3)⟩] 55 (by simp)⟩

/-- Claim C2: the image at index `i` is pasted at horizontal offset 0 and
vertical offset `Σ_{j<i}(hⱼ+padding)`: inside that band the canvas holds
exactly that image's pixels (RGBA-converted), so input order is preserved
top-to-bottom. -/
theorem combine_imgs_placement (imgs : List Image) (padding i x y : Nat)
    (hi : i < imgs.length)
    (hx : x < (imgs.getD i dummyImg).width)
    (hylo : y_offset_at padding imgs i ≤ y)
    (hyhi : y < y_offset_at padding imgs i + (imgs.getD i dummyImg).height) :
    ∃ cv, combine_imgs imgs padding = some cv ∧
      cv.pix x y =
        toRGBA ((imgs.getD i dummyImg).pix x (y - y_offset_at padding imgs i)) := by
  have hne : imgs ≠ [] := by
    intro hEq; rw [hEq] at hi; simp at hi
  obtain ⟨img0, rest, rfl⟩ := List.exists_cons_of_ne_nil hne
  refine ⟨_, rfl, ?_⟩
  have h := pasteAll_pix_at padding (img0 :: rest)
    (Canvas.new (combined_width (img0 :: rest))
      (combined_height (img0 :: rest) padding)) 0 i hi x y hx
    (by omega) (by omega)
  simpa using h

/-- Concrete check of C2: two stacked images, the second one (4×2, pasted
at offset 3+5=8) supplies pixel (0,8). -/
theorem combine_imgs_placement_witness :
    1 < ([(⟨2, 3, fun _ _ => (1, 2, 3)⟩ : Image), ⟨4, 2, fun _ _ => (9, 9, 9)⟩]).length ∧
    0 < (([(⟨2, 3, fun _ _ => (1, 2, 3)⟩ : Image), ⟨4, 2, fun _ _ => (9, 9, 9)⟩]).getD 1 dummyImg).width ∧
    y_offset_at 5 [(⟨2, 3, fun _ _ => (1, 2, 3)⟩ : Image), ⟨4, 2, fun _ _ => (9, 9, 9)⟩] 1 ≤ 8 ∧
    8 < y_offset_at 5 [(⟨2, 3, fun _ _ => (1, 2, 3)⟩ : Image), ⟨4, 2, fun _ _ => (9, 9, 9)⟩] 1 +
      (([(⟨2, 3, fun _ _ => (1, 2, 3)⟩ : Image), ⟨4, 2, fun _ _ => (9, 9, 9)⟩]).getD 1 dummyImg).height ∧
    ∃ cv, combine_imgs [(⟨2, 3, fun _ _ => (1, 2, 3)⟩ : Image), ⟨4, 2, fun _ _ => (9, 9, 9)⟩] 5 = some cv ∧
      cv.pix 0 8 =
        toRGBA ((([(⟨2, 3, fun _ _ => (1, 2, 3)⟩ : Image), ⟨4, 2, fun _ _ => (9, 9, 9)⟩]).getD 1 dummyImg).pix 0
          (8 - y_offset_at 5 [(⟨2, 3, fun _ _ => (1, 2, 3)⟩ : Image), ⟨4, 2, fun _ _ => (9, 9, 9)⟩] 1)) :=
  ⟨by decide, by decide, by decide, by decide,
    combine_imgs_placement [⟨2, 3, fun _ _ => (1, 2, 3)⟩, ⟨4, 2, fun _ _ => (9, 9, 9)⟩] 5 1 0 8
      (by decide) (by decide) (by decide) (by decide)⟩

/-- Claim C3: every canvas pixel not covered by a pasted source image is
fully transparent `(0,0,0,0)` — in particular the `padding` rows between
adjacent images and the strip to the right of an image narrower than the
canvas (images are left-aligned). -/
theorem combine_imgs_uncovered_transparent (imgs : List Image)
    (padding x y : Nat) (h : imgs ≠ [])
    (hx : x < combined_width imgs)
    (hy : y < combined_height imgs padding)
    (huncov : ∀ i, i < imgs.length →
      ¬ (x < (imgs.getD i dummyImg).width ∧
         y_offset_at padding imgs i ≤ y ∧
         y < y_offset_at padding imgs i + (imgs.getD i dummyImg).height)) :
    ∃ cv, combine_imgs imgs padding = some cv ∧ cv.pix x y = (0, 0, 0, 0) := by
  obtain ⟨img0, rest, rfl⟩ := List.exists_cons_of_ne_nil h
  refine ⟨_, rfl, ?_⟩
  rw [pasteAll_pix_uncovered padding (img0 :: rest) _ 0 x y ?_]
  · rfl
  · intro i hi
    have := huncov i hi
    simpa using this

/-- Concrete check of C3: pixel (3,1) lies right of the first (2-wide)
image and above the second image's band, hence is fully transparent. -/
theorem combine_imgs_uncovered_transparent_witness :
    ([(⟨2, 3, fun _ _ => (1, 2, 3)⟩ : Image), ⟨4, 2, fun _ _ => (9, 9, 9)⟩] ≠ ([] : List Image)) ∧
    3 < combined_width [(⟨2, 3, fun _ _ => (1, 2, 3)⟩ : Image), ⟨4, 2, fun _ _ => (9, 9, 9)⟩] ∧
    1 < combined_height [(⟨2, 3, fun _ _ => (1, 2, 3)⟩ : Image), ⟨4, 2, fun _ _ => (9, 9, 9)⟩] 5 ∧
    (∀ i, i < ([(⟨2, 3, fun _ _ => (1, 2, 3)⟩ : Image), ⟨4, 2, fun _ _ => (9, 9, 9)⟩]).length →
      ¬ (3 < (([(⟨2, 3, fun _ _ => (1, 2, 3)⟩ : Image), ⟨4, 2, fun _ _ => (9, 9, 9)⟩]).getD i dummyImg).width ∧
         y_offset_at 5 [(⟨2, 3, fun _ _ => (1, 2, 3)⟩ : Image), ⟨4, 2, fun _ _ => (9, 9, 9)⟩] i ≤ 1 ∧
         1 < y_offset_at 5 [(⟨2, 3, fun _ _ => (1, 2, 3)⟩ : Image), ⟨4, 2, fun _ _ => (9, 9, 9)⟩] i +
           (([(⟨2, 3, fun _ _ => (1, 2, 3)⟩ : Image), ⟨4, 2, fun _ _ => (9, 9, 9)⟩]).getD i dummyImg).height)) ∧
    ∃ cv, combine_imgs [(⟨2, 3, fun _ _ => (1, 2, 3)⟩ : Image), ⟨4, 2, fun _ _ => (9, 9, 9)⟩] 5 = some cv ∧
      cv.pix 3 1 = (0, 0, 0, 0) :=
  ⟨by simp, by decide, by decide, by decide,
    combine_imgs_uncovered_transparent
      [⟨2, 3, fun _ _ => (1, 2, 3)⟩, ⟨4, 2, fun _ _ => (9, 9, 9)⟩] 5 3 1
      (by simp) (by decide) (by decide) (by decide)⟩

/-- Claim C10: loop invariant of `combine_imgs` — when the `i`-th image
is pasted, its whole extent fits inside the canvas: the running offset
plus its height stays at or below `combined_height`, and its width is at
most `combined_width`, so no image is cropped by the paste. -/
theorem combine_imgs_paste_in_bounds (imgs : List Image) (padding i : Nat)
    (hi : i < imgs.length) :
    (imgs.getD i dummyImg).width ≤ combined_width imgs ∧
    y_offset_at padding imgs i + (imgs.getD i dummyImg).height ≤
      combined_height imgs padding :=
  ⟨width_le_combined_width imgs i hi, y_offset_add_height_le imgs padding i hi⟩

/-- Concrete check of C10 at index 1 of a two-image list. -/
theorem combine_imgs_paste_in_bounds_witness :
    1 < ([(⟨2, 3, fun _ _ => (1, 2, 3)⟩ : Image), ⟨4, 2, fun _ _ => (9, 9, 9)⟩]).length ∧
    ((([(⟨2, 3, fun _ _ => (1, 2, 3)⟩ : Image), ⟨4, 2, fun _ _ => (9, 9, 9)⟩]).getD 1 dummyImg).width ≤
      combined_width [(⟨2, 3, fun _ _ => (1, 2, 3)⟩ : Image), ⟨4, 2, fun _ _ => (9, 9, 9)⟩] ∧
    y_offset_at 5 [(⟨2, 3, fun _ _ => (1, 2, 3)⟩ : Image), ⟨4, 2, fun _ _ => (9, 9, 9)⟩] 1 +
      (([(⟨2, 3, fun _ _ => (1, 2, 3)⟩ : Image), ⟨4, 2, fun _ _ => (9, 9, 9)⟩]).getD 1 dummyImg).height ≤
      combined_height [(⟨2, 3, fun _ _ => (1, 2, 3)⟩ : Image), ⟨4, 2, fun _ _ => (9, 9, 9)⟩] 5) :=
  ⟨by decide,
    combine_imgs_paste_in_bounds
      [⟨2, 3, fun _ _ => (1, 2, 3)⟩, ⟨4, 2, fun _ _ => (9, 9, 9)⟩] 5 1 (by decide)⟩

/-- Claim C4: on an empty input `combine_imgs` does NOT produce a result:
`max(img.width for img in imgs)` raises an unhandled `ValueError` straight
from `max()` over an empty sequence (modelled here as `none`).  This is an
incidental crash, not the distinct, explicit, catchable error the spec
requires, which the spec itself records as a bug to fix (§7, §9). -/
theorem combine_imgs_empty_crashes :
    ∀ padding : Nat, combine_imgs [] padding = none :=
  fun _ => rfl

/-! ### Explicit-state embedding of the paste loop (frame property)

The loop `for img in imgs: combined_img.paste(img, (0, y_offset))` is
re-embedded with the mutable buffers explicit: the environment carries
the list of source image buffers and the output canvas, and each
iteration reads `imgs[k]` from the environment and writes only the
canvas, because the source line targets `combined_img`. -/

structure CombineEnv where
  imgs : List Image
  canvas : Canvas

/-- One pass of the paste loop over `fuel` remaining iterations, reading
the source image at index `k` from the environment each time. -/
def combineLoopSt (padding : Nat) : CombineEnv → Nat → Nat → Nat → CombineEnv
  | env, _, 0, _ => env
  | env, k, fuel + 1, y =>
      combineLoopSt padding
        ⟨env.imgs, env.canvas.paste (env.imgs.getD k dummyImg) 0 y⟩ (k + 1) fuel
        (y + (env.imgs.getD k dummyImg).height + padding)

/-- `combine_imgs` in the explicit-state embedding: allocate the fresh
canvas, then run the loop over all `len(imgs)` iterations. -/
def combine_imgs_st (imgs : List Image) (padding : Nat := 55) : CombineEnv :=
  combineLoopSt padding
    ⟨imgs, Canvas.new (combined_width imgs) (combined_height imgs padding)⟩
    0 imgs.length 0

lemma drop_eq_cons_getD :
    ∀ (full : List Image) (k : Nat) (t : Image) (ts : List Image),
      full.drop k = t :: ts → full.getD k dummyImg = t ∧ full.drop (k + 1) = ts
  | [], k, _, _, h => by simp at h
  | f :: fs, 0, t, ts, h => by
      simp only [List.drop_zero] at h
      obtain ⟨rfl, rfl⟩ := List.cons.inj h
      exact ⟨rfl, rfl⟩
  | f :: fs, k + 1, t, ts, h => by
      simp only [List.drop_succ_cons] at h
      have hrec := drop_eq_cons_getD fs k t ts h
      simpa using hrec

/-- The state-passing loop computes exactly the functional `pasteAll`,
and never writes to the source image list. -/
lemma combineLoopSt_eq_pasteAll (padding : Nat) :
    ∀ (tail full : List Image) (k : Nat) (cv : Canvas) (y : Nat),
      full.drop k = tail →
      combineLoopSt padding ⟨full, cv⟩ k tail.length y =
        ⟨full, pasteAll padding tail cv y⟩
  | [], _, _, _, _, _ => rfl
  | t :: ts, full, k, cv, y, h => by
      obtain ⟨hget, hdrop⟩ := drop_eq_cons_getD full k t ts h
      have ih := combineLoopSt_eq_pasteAll padding ts full (k + 1)
        (cv.paste t 0 y) (y + t.height + padding) hdrop
      simp only [List.length_cons]
      rw [combineLoopSt]
      simp only [hget]
      exact ih

/-- Claim C9: `combine_imgs` never mutates its inputs — after the loop
the source image list of the environment is unchanged, and the returned
canvas is exactly the result of pasting into the freshly allocated
`Canvas.new` buffer. -/
theorem combine_imgs_no_mutation (imgs : List Image) (padding : Nat) :
    (combine_imgs_st imgs padding).imgs = imgs ∧
    (imgs ≠ [] →
      combine_imgs imgs padding = some (combine_imgs_st imgs padding).canvas) := by
  have hmain := combineLoopSt_eq_pasteAll padding imgs imgs 0
    (Canvas.new (combined_width imgs) (combined_height imgs padding)) 0
    (by simp)
  constructor
  · rw [combine_imgs_st, hmain]
  · intro h
    obtain ⟨img0, rest, rfl⟩ := List.exists_cons_of_ne_nil h
    rw [combine_imgs_st, hmain]
    rfl

/-- Concrete check of C9 on a one-image list. -/
theorem combine_imgs_no_mutation_witness :
    (combine_imgs_st [(⟨2, 3, fun _ _ => (1, 2, 3)⟩ : Image)] 55).imgs =
      [(⟨2, 3, fun _ _ => (1, 2, 3)⟩ : Image)] ∧
    ([(⟨2, 3, fun _ _ => (1, 2, 3)⟩ : Image)] ≠ ([] : List Image)) ∧
    combine_imgs [(⟨2, 3, fun _ _ => (1, 2, 3)⟩ : Image)] 55 =
      some (combine_imgs_st [(⟨2, 3, fun _ _ => (1, 2, 3)⟩ : Image)] 55).canvas :=
  ⟨(combine_imgs_no_mutation [⟨2, 3, fun _ _ => (1, 2, 3)⟩] 55).1, by simp,
    (combine_imgs_no_mutation [⟨2, 3, fun _ _ => (1, 2, 3)⟩] 55).2 (by simp)⟩

/-! ### The command-line driver (the `__main__` block)

Strings are modelled as their character lists where convenient.  Digits
(`\d` in the range regex, and the digits accepted by `int()`) are
modelled as the ASCII digits `0`-`9`; the source's Unicode-aware `\d`
and `int()` agree with this model on all ASCII input. -/

/-- `str.find(c)`: index of the first occurrence, `-1` if absent. -/
def pyFind (c : Char) : List Char → Int
  | [] => -1
  | x :: xs =>
      if x = c then 0
      else if pyFind c xs = -1 then -1 else pyFind c xs + 1

/-- `str.rfind(c)`: index of the last occurrence, `-1` if absent. -/
def pyRFind (c : Char) (s : List Char) : Int :=
  if pyFind c s.reverse = -1 then -1
  else (s.length : Int) - 1 - pyFind c s.reverse

/-- Python slice `s[:i]` for an `int` index: non-negative indices take a
prefix (clamped at the length), negative indices count from the end
(clamped at 0, via truncated subtraction). -/
def pySliceTo (s : List Char) (i : Int) : List Char :=
  if 0 ≤ i then s.take i.toNat else s.take (s.length - (-i).toNat)

/-- Python slice `s[i:]` with the same index conventions. -/
def pySliceFrom (s : List Char) (i : Int) : List Char :=
  if 0 ≤ i then s.drop i.toNat else s.drop (s.length - (-i).toNat)

/-- The whitespace stripping `int()` performs on a string argument. -/
def stripWs (s : List Char) : List Char :=
  ((s.dropWhile Char.isWhitespace).reverse.dropWhile Char.isWhitespace).reverse

mutual

/-- After the first digit, `int()` accepts further digits with single
underscores allowed between digits (never doubled, leading or trailing). -/
def digitsTail : List Char → Bool
  | [] => true
  | c :: rest =>
      if c = '_' then underscoreTail rest
      else c.isDigit && digitsTail rest

/-- Directly after an underscore a digit must follow. -/
def underscoreTail : List Char → Bool
  | [] => false
  | d :: rest => d.isDigit && digitsTail rest

end

/-- A non-empty digit run with single underscores between digits. -/
def goodDigits : List Char → Bool
  | [] => false
  | c :: rest => c.isDigit && digitsTail rest

/-- Numeric value of a digit run (underscores skipped). -/
def digitsNat (s : List Char) : Nat :=
  (s.filter (fun c => c != '_')).foldl (fun a c => a * 10 + (c.toNat - 48)) 0

/-- Sign handling of `int()` on an already-stripped string: one optional
leading sign, then a non-empty digit run. -/
def pyIntCore : List Char → Option Int
  | [] => none
  | c :: rest =>
      if c = '+' then
        if goodDigits rest then some (digitsNat rest) else none
      else if c = '-' then
        if goodDigits rest then some (-(digitsNat rest : Int)) else none
      else
        if goodDigits (c :: rest) then some (digitsNat (c :: rest)) else none

/-- Python `int(str)`: strip whitespace, allow one optional sign, then
require a non-empty digit run; `ValueError` is modelled as `none`. -/
def pyInt? (s : List Char) : Option Int :=
  pyIntCore (stripWs s)

/-- `re.match(r'^\d*:\d*$', tok)` (src/pdf2img.py line 82): a possibly
empty digit run, one colon, a possibly empty digit run.  Equivalent to
the regex: the leading `\d*` is greedy and digits are never `':'`, so
the match succeeds exactly when the first non-digit character exists,
is `':'`, and everything after it is digits. -/
def isRangeTok (s : List Char) : Bool :=
  match s.dropWhile Char.isDigit with
  | ':' :: rest => rest.all Char.isDigit
  | _ => false

/-- Lines 88-97 of src/pdf2img.py: `i = sys.argv[1].find(':')`, then
`start = int(sys.argv[1][:i])` and `stop = int(sys.argv[1][i+1:])`,
each `None` on `ValueError`.  Note the source runs this whether or not
the first token matched the range pattern. -/
def parseStartStop (tok : List Char) : Option Int × Option Int :=
  (pyInt? (pySliceTo tok (pyFind ':' tok)),
   pyInt? (pySliceFrom tok (pyFind ':' tok + 1)))

/-- `os.path.splitext(p)[0]` (POSIX rules): cut at the last dot after
the last slash, unless every character between them is a dot (leading
dots of a basename are not an extension). -/
def splitextRoot (p : String) : String :=
  let cs := p.toList
  let si := pyRFind '/' cs
  let di := pyRFind '.' cs
  if si < di ∧
      ((cs.drop (si + 1).toNat).take (di - si - 1).toNat).any (fun c => c != '.') = true then
    String.mk (cs.take di.toNat)
  else p

/-- Outcome of the `__main__` block's argument handling: `exit(1)`, or a
run with the recorded PDF path, page slice and output path. -/
inductive MainResult where
  | exitOne : MainResult
  | run : String → Option Int → Option Int → String → MainResult
deriving DecidableEq

/-- The `__main__` block (src/pdf2img.py lines 79-112) as a function of
`sys.argv` (element 0 is the program name).  `run pdf start stop out`
records the values driving the external calls: `pymupdf.open(pdf)`,
`doc[start:stop]`, and `combined_img.save(out)`. -/
def mainArgs (argv : List String) : MainResult :=
  if argv.length = 1 then MainResult.exitOne
  else
    let arg1 := (argv.getD 1 "").toList
    let isR := isRangeTok arg1
    if isR = true ∧ argv.length = 2 then MainResult.exitOne
    else
      let ss := parseStartStop arg1
      let shift := if isR = true then 1 else 0
      let pdfPath := argv.getD (1 + shift) ""
      let outPath :=
        if 2 + shift < argv.length then argv.getD (2 + shift) ""
        else splitextRoot pdfPath ++ ".png"
      MainResult.run pdfPath ss.1 ss.2 outPath

/-! ### Lemmas about the token parsing -/

lemma digit_not_ws (c : Char) (h : c.isDigit = true) : c.isWhitespace = false := by
  cases hb : c.isWhitespace
  · rfl
  · exfalso
    have hw : ((c = ' ' ∨ c = '\t') ∨ c = '\r') ∨ c = '\n' := by
      simpa [Char.isWhitespace] using hb
    rcases hw with ((h1 | h1) | h1) | h1 <;> subst h1 <;> exact absurd h (by decide)

lemma digit_ne_of (c x : Char) (h : c.isDigit = true) (hx : x.isDigit = false) :
    c ≠ x := by
  intro hEq
  rw [hEq, hx] at h
  cases h

lemma mem_of_mem_dropWhileWs :
    ∀ (l : List Char) (c : Char),
      c ∈ l.dropWhile Char.isWhitespace → c ∈ l
  | [], _, h => h
  | x :: xs, c, h => by
      simp only [List.dropWhile] at h
      cases hx : x.isWhitespace
      · rw [hx] at h
        exact h
      · rw [hx] at h
        exact List.mem_cons_of_mem x (mem_of_mem_dropWhileWs xs c h)

lemma mem_of_mem_stripWs (s : List Char) (c : Char) (h : c ∈ stripWs s) :
    c ∈ s := by
  unfold stripWs at h
  rw [List.mem_reverse] at h
  have h2 := mem_of_mem_dropWhileWs _ _ h
  rw [List.mem_reverse] at h2
  exact mem_of_mem_dropWhileWs _ _ h2

lemma dropWhileWs_eq_self (l : List Char)
    (h : ∀ c ∈ l, c.isWhitespace = false) :
    l.dropWhile Char.isWhitespace = l := by
  cases l with
  | nil => rfl
  | cons x xs =>
      simp only [List.dropWhile]
      rw [h x (List.mem_cons_self x xs)]

lemma stripWs_eq_self (s : List Char)
    (h : ∀ c ∈ s, c.isWhitespace = false) : stripWs s = s := by
  unfold stripWs
  rw [dropWhileWs_eq_self s h,
    dropWhileWs_eq_self s.reverse (fun c hc => h c (List.mem_reverse.mp hc))]
  exact List.reverse_reverse s

lemma digitsTail_of_digits :
    ∀ l : List Char, (∀ c ∈ l, c.isDigit = true) → digitsTail l = true
  | [], _ => rfl
  | c :: rest, h => by
      have hc : c.isDigit = true := h c (List.mem_cons_self c rest)
      have hne : c ≠ '_' := digit_ne_of c '_' hc (by decide)
      simp only [digitsTail]
      rw [if_neg hne, hc,
        digitsTail_of_digits rest (fun x hx => h x (List.mem_cons_of_mem c hx))]
      rfl

/-- `int()` on a non-empty pure digit string yields its decimal value. -/
lemma pyInt?_digits (ds : List Char) (hne : ds ≠ [])
    (h : ∀ c ∈ ds, c.isDigit = true) :
    pyInt? ds = some (digitsNat ds : Int) := by
  have hstrip : stripWs ds = ds :=
    stripWs_eq_self ds (fun c hc => digit_not_ws c (h c hc))
  unfold pyInt?
  rw [hstrip]
  cases ds with
  | nil => exact absurd rfl hne
  | cons c rest =>
      have hc : c.isDigit = true := h c (List.mem_cons_self c rest)
      simp only [pyIntCore]
      rw [if_neg (digit_ne_of c '+' hc (by decide)),
        if_neg (digit_ne_of c '-' hc (by decide))]
      have hgood : goodDigits (c :: rest) = true := by
        simp only [goodDigits]
        rw [hc,
          digitsTail_of_digits rest (fun x hx => h x (List.mem_cons_of_mem c hx))]
        rfl
      rw [if_pos hgood]

lemma pyInt?_nil : pyInt? [] = none := rfl

lemma goodDigits_false_of_no_digit (l : List Char)
    (h : ∀ c ∈ l, c.isDigit = false) : goodDigits l = false := by
  cases l with
  | nil => rfl
  | cons c rest =>
      simp only [goodDigits]
      rw [h c (List.mem_cons_self c rest)]
      rfl

/-- `int()` fails on any string containing no digit at all. -/
lemma pyInt?_none_of_no_digit (s : List Char)
    (h : ∀ c ∈ s, c.isDigit = false) : pyInt? s = none := by
  have hmem : ∀ x ∈ stripWs s, x.isDigit = false :=
    fun x hx => h x (mem_of_mem_stripWs s x hx)
  unfold pyInt?
  cases hs : stripWs s with
  | nil => rfl
  | cons c rest =>
      rw [hs] at hmem
      have h2 : goodDigits (c :: rest) = false :=
        goodDigits_false_of_no_digit _ hmem
      have h1 : goodDigits rest = false :=
        goodDigits_false_of_no_digit _
          (fun x hx => hmem x (List.mem_cons_of_mem c hx))
      simp [pyIntCore, h1, h2]

lemma pyFind_digits_append :
    ∀ a b : List Char, (∀ c ∈ a, c.isDigit = true) →
      pyFind ':' (a ++ ':' :: b) = (a.length : Int)
  | [], b, _ => by simp [pyFind]
  | x :: a, b, h => by
      have hx : x.isDigit = true := h x (List.mem_cons_self x a)
      have ih := pyFind_digits_append a b
        (fun c hc => h c (List.mem_cons_of_mem x hc))
      simp only [List.cons_append, pyFind, List.append_eq]
      rw [if_neg (digit_ne_of x ':' hx (by decide)), ih,
        if_neg (by omega : ¬ ((a.length : Int) = -1))]
      simp only [List.length_cons]
      omega

lemma pySliceTo_append (a b : List Char) :
    pySliceTo (a ++ ':' :: b) (a.length : Int) = a := by
  unfold pySliceTo
  rw [if_pos (by omega : (0 : Int) ≤ (a.length : Int)), Int.toNat_natCast,
    List.take_left]

lemma pySliceFrom_append (a b : List Char) :
    pySliceFrom (a ++ ':' :: b) ((a.length : Int) + 1) = b := by
  unfold pySliceFrom
  rw [if_pos (by omega : (0 : Int) ≤ (a.length : Int) + 1)]
  have : ((a.length : Int) + 1).toNat = a.length + 1 := by omega
  rw [this, ← List.drop_drop, List.drop_left]
  rfl

lemma dropWhile_digits_append :
    ∀ a b : List Char, (∀ c ∈ a, c.isDigit = true) →
      (a ++ ':' :: b).dropWhile Char.isDigit = ':' :: b
  | [], b, _ => rfl
  | x :: a, b, h => by
      have hx : x.isDigit = true := h x (List.mem_cons_self x a)
      simp only [List.cons_append, List.dropWhile]
      rw [hx]
      exact dropWhile_digits_append a b
        (fun c hc => h c (List.mem_cons_of_mem x hc))

/-! ### Claim theorems: the command-line driver -/

/-- Claim C5: every token made of a digit run, a colon and a digit run
matches the range pattern, and the parser extracts `start` from the part
before the colon and `stop` from the part after it, each `None` when its
digit run is empty — so `3:7` ↦ (3, 7), `:5` ↦ (None, 5), `2:` ↦
(2, None) and `:` ↦ (None, None). -/
theorem range_token_parsing (a b : List Char)
    (ha : ∀ c ∈ a, c.isDigit = true) (hb : ∀ c ∈ b, c.isDigit = true) :
    isRangeTok (a ++ ':' :: b) = true ∧
    parseStartStop (a ++ ':' :: b) =
      ((if a = [] then none else some (digitsNat a : Int)),
       (if b = [] then none else some (digitsNat b : Int))) := by
  constructor
  · unfold isRangeTok
    rw [dropWhile_digits_append a b ha]
    simpa using hb
  · unfold parseStartStop
    rw [pyFind_digits_append a b ha, pySliceTo_append, pySliceFrom_append]
    cases ha2 : decide (a = []) with
    | true =>
        have : a = [] := of_decide_eq_true ha2
        subst this
        cases hb2 : decide (b = []) with
        | true =>
            have : b = [] := of_decide_eq_true hb2
            subst this
            simp [pyInt?_nil]
        | false =>
            have hbne : b ≠ [] := of_decide_eq_false hb2
            simp [pyInt?_nil, pyInt?_digits b hbne hb, hbne]
    | false =>
        have hane : a ≠ [] := of_decide_eq_false ha2
        cases hb2 : decide (b = []) with
        | true =>
            have : b = [] := of_decide_eq_true hb2
            subst this
            simp [pyInt?_nil, pyInt?_digits a hane ha, hane]
        | false =>
            have hbne : b ≠ [] := of_decide_eq_false hb2
            simp [pyInt?_digits a hane ha, pyInt?_digits b hbne hb, hane, hbne]

/-- Concrete check of C5 on the token `3:7`. -/
theorem range_token_parsing_witness :
    (∀ c ∈ ['3'], c.isDigit = true) ∧ (∀ c ∈ ['7'], c.isDigit = true) ∧
    (isRangeTok (['3'] ++ ':' :: ['7']) = true ∧
     parseStartStop (['3'] ++ ':' :: ['7']) =
       ((if (['3'] : List Char) = [] then none else some (digitsNat ['3'] : Int)),
        (if (['7'] : List Char) = [] then none else some (digitsNat ['7'] : Int)))) :=
  ⟨by decide, by decide, range_token_parsing ['3'] ['7'] (by decide) (by decide)⟩

/-- Counterexample to claim C6 as stated: the all-digit token `123` does
not match the range pattern (it is treated as the PDF path), yet the
start/stop extraction still runs on it and yields the slice
`(12, 123)`, not `(None, None)` — the whole document is NOT selected. -/
theorem nonrange_numeric_token_slices :
    isRangeTok ("123".toList) = false ∧
    parseStartStop ("123".toList) = (some 12, some 123) ∧
    mainArgs ["pdf2img.py", "123"] =
      MainResult.run "123" (some 12) (some 123) "123.png" := by
  refine ⟨by decide, by decide, by decide⟩

/-- Claim C6 (amended): a non-matching first token is treated as the PDF
path, but the slice is still extracted from the token by the same
find/int logic; it is `(None, None)` (entire document) whenever the
token contains no digit character, while e.g. all-digit tokens yield a
non-trivial slice. -/
theorem nonrange_token_is_path (s : String)
    (hr : isRangeTok s.toList = false)
    (hd : ∀ c ∈ s.toList, c.isDigit = false) :
    parseStartStop s.toList = (none, none) ∧
    ∀ prog : String, ∀ rest : List String,
      ∃ out, mainArgs (prog :: s :: rest) = MainResult.run s none none out := by
  have hto : pyInt? (pySliceTo s.toList (pyFind ':' s.toList)) = none := by
    apply pyInt?_none_of_no_digit
    intro c hc
    apply hd
    revert hc
    unfold pySliceTo
    split
    · exact fun hc => (List.take_sublist _ _).mem hc
    · exact fun hc => (List.take_sublist _ _).mem hc
  have hfrom : pyInt? (pySliceFrom s.toList (pyFind ':' s.toList + 1)) = none := by
    apply pyInt?_none_of_no_digit
    intro c hc
    apply hd
    revert hc
    unfold pySliceFrom
    split
    · exact fun hc => (List.drop_sublist _ _).mem hc
    · exact fun hc => (List.drop_sublist _ _).mem hc
  have hss : parseStartStop s.toList = (none, none) := by
    unfold parseStartStop
    rw [hto, hfrom]
  refine ⟨hss, ?_⟩
  intro prog rest
  simp only [mainArgs, List.length_cons, List.getD_cons_succ, List.getD_cons_zero,
    hr, hss]
  simp only [Bool.false_eq_true, false_and, if_false, if_neg (by omega : ¬ (rest.length + 1 + 1 = 1))]
  exact ⟨_, rfl⟩

/-- Concrete check of the amended C6 on the digit-free token `doc.pdf`. -/
theorem nonrange_token_is_path_witness :
    isRangeTok ("doc.pdf".toList) = false ∧
    (∀ c ∈ "doc.pdf".toList, c.isDigit = false) ∧
    (parseStartStop ("doc.pdf".toList) = (none, none) ∧
     ∀ prog : String, ∀ rest : List String,
       ∃ out, mainArgs (prog :: "doc.pdf" :: rest) =
         MainResult.run "doc.pdf" none none out) :=
  ⟨by decide, by decide, nonrange_token_is_path "doc.pdf" (by decide) (by decide)⟩

/-- Claim C7: the argument parser exits with status 1 exactly when no
arguments are given (`len(sys.argv) == 1`) or the sole argument is a
range token (`len(sys.argv) == 2` and the token matches). -/
theorem exit_one_iff (argv : List String) :
    mainArgs argv = MainResult.exitOne ↔
      (argv.length = 1 ∨
        (isRangeTok ((argv.getD 1 "").toList) = true ∧ argv.length = 2)) := by
  by_cases h1 : argv.length = 1
  · simp [mainArgs, h1]
  · by_cases h2 : isRangeTok ((argv.getD 1 "").toList) = true ∧ argv.length = 2
    · simp [mainArgs, h1, h2]
    · simp [mainArgs, h1, h2]

/-- Claim C8: when no output path argument is supplied, the output path
is the input path with its extension replaced by `.png`
(`os.path.splitext(path)[0] + '.png'`). -/
theorem default_output_path (argv : List String) (p : String)
    (st sp : Option Int) (out : String)
    (hrun : mainArgs argv = MainResult.run p st sp out)
    (hnoout : argv.length ≤
      2 + (if isRangeTok ((argv.getD 1 "").toList) = true then 1 else 0)) :
    out = splitextRoot p ++ ".png" := by
  simp only [mainArgs] at hrun
  by_cases h1 : argv.length = 1
  · rw [if_pos h1] at hrun
    exact absurd hrun (by simp)
  · rw [if_neg h1] at hrun
    by_cases h2 : isRangeTok ((argv.getD 1 "").toList) = true ∧ argv.length = 2
    · rw [if_pos h2] at hrun
      exact absurd hrun (by simp)
    · rw [if_neg h2,
        if_neg (Nat.not_lt.mpr hnoout)] at hrun
      obtain ⟨hp, _, _, hout⟩ := MainResult.run.inj hrun
      subst hp
      subst hout
      rfl

/-- Concrete check of C8: `pdf2img.py doc.pdf` writes to `doc.png`. -/
theorem default_output_path_witness :
    mainArgs ["pdf2img.py", "doc.pdf"] =
      MainResult.run "doc.pdf" none none "doc.png" ∧
    (["pdf2img.py", "doc.pdf"] : List String).length ≤
      2 + (if isRangeTok (((["pdf2img.py", "doc.pdf"] : List String).getD 1 "").toList) = true
        then 1 else 0) ∧
    "doc.png" = splitextRoot "doc.pdf" ++ ".png" :=
  ⟨by decide, by decide,
    default_output_path ["pdf2img.py", "doc.pdf"] "doc.pdf" none none "doc.png"
      (by decide) (by decide)⟩

end Pdf2Img
